import Mathlib

/-!
Shallow embedding of `src/track/track.py` (class `Track`) from the
classifier-pipeline repository, together with proofs about its operations.

Numeric conventions:
* Python ints are modelled as `ℤ`, Python floats as `ℚ` where the source only
  performs field operations, and as `ℝ` where the source takes square roots
  (`x ** 0.5`, faithful for non-negative `x`).
* Python `int(x)` (truncation toward zero) is `pyInt`.
* Fallible operations (out-of-bounds indexing, division by zero) return
  `Option`, with `none` marking the run-time error the Python code would raise.
-/

namespace ClassifierPipeline

/-- Python `int()` applied to a rational: truncation toward zero. -/
def pyInt (q : ℚ) : ℤ := q.num.tdiv q.den

/-- Modelled from the spec: the external `Region` data contract (spec §2/§6),
which is not part of this repository's core source.  A `Region` is a bounding
box with integer position and size, a motion-mass value, a pixel-variance
value and a frame index; midpoint and area are derived.  `copy()` is a value
copy, which in this immutable embedding is the identity. -/
structure Region where
  x : ℤ
  y : ℤ
  width : ℤ
  height : ℤ
  mass : ℚ
  pixel_variance : ℚ
  frame_index : ℤ
deriving DecidableEq

def Region.left (r : Region) : ℤ := r.x

def Region.right (r : Region) : ℤ := r.x + r.width

def Region.top (r : Region) : ℤ := r.y

def Region.bottom (r : Region) : ℤ := r.y + r.height

/-- Modelled from the spec: derived area of the bounding box. -/
def Region.area (r : Region) : ℤ := r.width * r.height

/-- Modelled from the spec: derived midpoint (x), the box centre. -/
def Region.mid_x (r : Region) : ℚ := (r.x : ℚ) + (r.width : ℚ) / 2

/-- Modelled from the spec: derived midpoint (y), the box centre. -/
def Region.mid_y (r : Region) : ℚ := (r.y : ℚ) + (r.height : ℚ) / 2

/-- Modelled from the spec: `overlap_area(other Region) → numeric`, the
intersection area of the two boxes. -/
def Region.overlap_area (r s : Region) : ℤ :=
  max 0 (min r.right s.right - max r.left s.left) *
    max 0 (min r.bottom s.bottom - max r.top s.top)

/-- Modelled from the spec: the external `Rectangle` contract, "a simple
axis-aligned bounding box used only as the crop target for `smooth`". -/
structure Rectangle where
  left : ℤ
  top : ℤ
  right : ℤ
  bottom : ℤ
deriving DecidableEq

/-- Modelled from the spec: `Region.crop(frame_rectangle)` clips the region
to the bounding rectangle so it never exceeds the frame edges. -/
def Region.crop (r : Region) (b : Rectangle) : Region :=
  let L := max r.left b.left
  let T := max r.top b.top
  let R := min r.right b.right
  let B := min r.bottom b.bottom
  { r with x := L, y := T, width := max 0 (R - L), height := max 0 (B - T) }

/-- Default region, used only as the (never selected) default of `List.getD`
at indices that are proved in range. -/
def dfltRegion : Region :=
  { x := 0, y := 0, width := 0, height := 0, mass := 0, pixel_variance := 0, frame_index := 0 }

instance : Inhabited Region := ⟨dfltRegion⟩

/-- The `TrackMovementStatistics` namedtuple; all fields default to 0. -/
structure TrackMovementStatistics where
  movement : ℝ := 0
  max_offset : ℝ := 0
  score : ℝ := 0
  average_mass : ℝ := 0
  median_mass : ℝ := 0
  delta_std : ℝ := 0

/-- The `Track` object.  `track_id_instance` records the *instance* attribute
`_track_id` that `Track.__init__` creates when it executes
`self._track_id += 1` (Python augmented assignment on an instance creates an
instance attribute shadowing the class attribute; the class attribute is the
separate per-process value threaded through `mkTrack`).  The instance
attribute is never read again by any method. -/
structure Track where
  id : ℤ
  track_id_instance : Option ℤ
  start_frame : ℕ
  bounds_history : List Region
  frames_since_target_seen : ℕ
  vel_x : ℚ
  vel_y : ℚ
  tag : String
deriving DecidableEq

/-- Python truthiness of the optional `id` argument of `Track.__init__`
(`if not id:`): `None` and `0` are falsy. -/
def pyFalsyId : Option ℤ → Bool
  | none => true
  | some i => i == 0

/-- Embedding of `Track.__init__(self, id=None)`.  `classTrackId` is the current value of
the class attribute `Track._track_id` (initially `1`); the second component
of the result is its value after construction.  When no truthy id is given,
the code runs `self.id = self._track_id` (reading the class attribute, since
the instance has none yet) and then `self._track_id += 1`, which creates an
*instance* attribute holding `classTrackId + 1` and leaves the class
attribute itself unchanged — hence the unchanged second component. -/
def mkTrack (id : Option ℤ) (classTrackId : ℤ) : Track × ℤ :=
  if pyFalsyId id then
    ({ id := classTrackId
       track_id_instance := some (classTrackId + 1)
       start_frame := 0
       bounds_history := []
       frames_since_target_seen := 0
       vel_x := 0
       vel_y := 0
       tag := "unknown" }, classTrackId)
  else
    ({ id := id.getD 0
       track_id_instance := none
       start_frame := 0
       bounds_history := []
       frames_since_target_seen := 0
       vel_x := 0
       vel_y := 0
       tag := "unknown" }, classTrackId)

/-- Python negative index `l[-k]`, as `getD` at `l.length - k`.  All uses are
at indices the source guarantees in range. -/
def pyNeg (l : List Region) (k : ℕ) : Region := l.getD (l.length - k) dfltRegion

/-- Embedding of `Track.add_frame(bounds)`: appends a value copy of `bounds`, resets
`frames_since_target_seen`, and recomputes velocity from the last two history
entries (`bounds_history[-1]`, `bounds_history[-2]`) when `len(self) >= 2`,
else sets it to 0. -/
def Track.add_frame (t : Track) (bounds : Region) : Track :=
  let hist := t.bounds_history ++ [bounds]
  if 2 ≤ hist.length then
    { t with bounds_history := hist, frames_since_target_seen := 0,
             vel_x := (pyNeg hist 1).mid_x - (pyNeg hist 2).mid_x,
             vel_y := (pyNeg hist 1).mid_y - (pyNeg hist 2).mid_y }
  else
    { t with bounds_history := hist, frames_since_target_seen := 0,
             vel_x := 0, vel_y := 0 }

/-- Embedding of `Track.add_blank_frame()`: appends `self.bounds.copy()` (a copy of the
last entry), then zeroes the mass and pixel variance of the *new* last entry
(`self.bounds` now refers to the appended copy) and advances its frame index
by 1; velocity is set to 0.  On an empty track `self.bounds` raises
`IndexError`, modelled as `none`.  `frames_since_target_seen` is not touched. -/
def Track.add_blank_frame (t : Track) : Option Track :=
  match t.bounds_history.getLast? with
  | none => none
  | some last =>
    some { t with
      bounds_history := t.bounds_history ++
        [{ last with mass := 0, pixel_variance := 0, frame_index := last.frame_index + 1 }],
      vel_x := 0, vel_y := 0 }

/-- Model of `np.median` on a list of integers: sort, take the middle element for odd
length, the mean of the two middle elements for even length. -/
def npMedian (l : List ℤ) : ℚ :=
  let s := l.mergeSort (fun a b => a ≤ b)
  let n := s.length
  if n % 2 = 1 then ((s.getD (n / 2) 0 : ℤ) : ℚ)
  else (((s.getD (n / 2 - 1) 0 : ℤ) : ℚ) + ((s.getD (n / 2) 0 : ℤ) : ℚ)) / 2

/-- Embedding of `Track.get_stats()`.  Direct translation of the source: all per-frame
lists, the consecutive-pair velocity lists (`zip(mid_x[1:], mid_x[:-1])`),
`movement`, `max_offset` (Python `max` over a list whose first element is 0
and whose elements are all non-negative, hence `foldr max 0`), `delta_std`
(`np.mean` of the variances, square-rooted), the two score components and
their capped sum.  `x ** 0.5` is modelled as `Real.sqrt`, faithful for the
non-negative arguments arising here (squares; variances are non-negative by
the Region contract). -/
noncomputable def Track.get_stats (t : Track) : TrackMovementStatistics :=
  if t.bounds_history.length ≤ 1 then {} else
  let mass_history : List ℤ := t.bounds_history.map (fun bound => pyInt bound.mass)
  let variance_history : List ℚ := t.bounds_history.map Region.pixel_variance
  let mid_x : List ℚ := t.bounds_history.map Region.mid_x
  let mid_y : List ℚ := t.bounds_history.map Region.mid_y
  let delta_x : List ℚ := mid_x.map (fun v => mid_x.headD 0 - v)
  let delta_y : List ℚ := mid_y.map (fun v => mid_y.headD 0 - v)
  let vel_x : List ℚ := (mid_x.tail.zip mid_x.dropLast).map (fun c => c.1 - c.2)
  let vel_y : List ℚ := (mid_y.tail.zip mid_y.dropLast).map (fun c => c.1 - c.2)
  let movement : ℝ :=
    ((vel_x.zip vel_y).map (fun v => Real.sqrt (((v.1 : ℝ)) ^ 2 + ((v.2 : ℝ)) ^ 2))).sum
  let max_offset : ℝ :=
    ((delta_x.zip delta_y).map (fun d => Real.sqrt (((d.1 : ℝ)) ^ 2 + ((d.2 : ℝ)) ^ 2))).foldr max 0
  let delta_std : ℝ :=
    Real.sqrt (((variance_history.sum : ℚ) : ℝ) / (variance_history.length : ℝ))
  let movement_points : ℝ := Real.sqrt movement + max_offset
  let delta_points : ℝ := delta_std * 25
  let score : ℝ := min movement_points 100 + min delta_points 100
  { movement := movement
    max_offset := max_offset
    average_mass := ((mass_history.sum : ℚ) : ℝ) / (mass_history.length : ℝ)
    median_mass := ((npMedian mass_history : ℚ) : ℝ)
    delta_std := delta_std
    score := score }

/-- Embedding of `Track.smooth(frame_bounds)`.  Returns unchanged on an empty history.
Otherwise the source first runs `next_frame = self.bounds_history[1]` (a dead
initialiser overwritten by the loop), which raises `IndexError` when the
history has exactly one entry — modelled by matching on `bounds_history[1]?`.
The loop builds, for each index `i`, a region of the averaged width/height of
the clamped neighbours (`max(0, i-1)` is `Nat` subtraction; `min(len-1, i+1)`)
centred on the current midpoint, truncated to integers via `pyInt`, cropped
to `frame_bounds`; the new list replaces `bounds_history` wholesale. -/
def Track.smooth (t : Track) (frame_bounds : Rectangle) : Option Track :=
  if t.bounds_history.length = 0 then some t
  else
    match t.bounds_history[1]? with
    | none => none
    | some _ =>
      some { t with bounds_history :=
        (List.range t.bounds_history.length).map (fun i =>
          let prev_frame := t.bounds_history.getD (i - 1) dfltRegion
          let current_frame := t.bounds_history.getD i dfltRegion
          let next_frame :=
            t.bounds_history.getD (min (t.bounds_history.length - 1) (i + 1)) dfltRegion
          let frame_x : ℚ := current_frame.mid_x
          let frame_y : ℚ := current_frame.mid_y
          let frame_width : ℚ :=
            ((prev_frame.width : ℚ) + (current_frame.width : ℚ) + (next_frame.width : ℚ)) / 3
          let frame_height : ℚ :=
            ((prev_frame.height : ℚ) + (current_frame.height : ℚ) + (next_frame.height : ℚ)) / 3
          let frame : Region :=
            { x := pyInt (frame_x - frame_width / 2), y := pyInt (frame_y - frame_height / 2),
              width := pyInt frame_width, height := pyInt frame_height,
              mass := 0, pixel_variance := 0, frame_index := 0 }
          frame.crop frame_bounds) }

/-- The per-frame emptiness test of `Track.trim`: integer mass at most 2. -/
def emptyMass (r : Region) : Bool := pyInt r.mass ≤ 2

/-- Embedding of `Track.trim()`.  The first while loop advances `start` while the frame at
`start` has integer mass ≤ 2, so its final value is the length of the maximal
such prefix (`takeWhile`).  The second loop decrements `end` from `len-1`
while `end > 0` and the frame at `end` has mass ≤ 2; when some frame has mass
> 2 its final value is `len - 1 - trail` where `trail` is the length of the
maximal such suffix, and when every frame has mass ≤ 2 (including the empty
history, where Python starts from `end = -1`) the value written here differs
from the loop's (it is negative rather than 0) but in exactly those cases
both satisfy `end < start`, so the same branch is taken and the value is
unused.  Then either the whole history is cleared and `start_frame` reset to
0, or `bounds_history[start:end+1]` is kept and `start_frame` advanced by
`start`. -/
def Track.trim (t : Track) : Track :=
  let mass_history : List ℤ := t.bounds_history.map (fun bound => pyInt bound.mass)
  let start : ℕ := (mass_history.takeWhile (fun m => m ≤ 2)).length
  let stop : ℤ :=
    (mass_history.length : ℤ) - 1 - ((mass_history.reverse.takeWhile (fun m => m ≤ 2)).length : ℤ)
  if stop < (start : ℤ) then
    { t with start_frame := 0, bounds_history := [] }
  else
    { t with start_frame := t.start_frame + start,
             bounds_history := (t.bounds_history.drop start).take (stop + 1 - start).toNat }

/-- Embedding of `Track.get_track_region_score(region)`.  `self.bounds` on an empty track
raises `IndexError` (`none`); the division raises `ZeroDivisionError` when
`self.bounds.area + 50 = 0` (`none`).  Otherwise the expected point is the
current midpoint plus velocity, **truncated to integers by `int()`**, the
distance is Euclidean (`** 0.5` on a non-negative float), and the size
difference is `abs(region.area - self.bounds.area) / (self.bounds.area + 50)
* 100`. -/
noncomputable def Track.get_track_region_score (t : Track) (region : Region) :
    Option (ℝ × ℚ) :=
  match t.bounds_history.getLast? with
  | none => none
  | some bounds =>
    if bounds.area + 50 = 0 then none
    else
      let expected_x : ℤ := pyInt (bounds.mid_x + t.vel_x)
      let expected_y : ℤ := pyInt (bounds.mid_y + t.vel_y)
      let distance : ℝ :=
        Real.sqrt (((region.mid_x : ℝ) - (expected_x : ℝ)) ^ 2 +
          ((region.mid_y : ℝ) - (expected_y : ℝ)) ^ 2)
      let size_difference : ℚ :=
        ((|region.area - bounds.area| : ℤ) : ℚ) / ((bounds.area : ℚ) + 50) * 100
      some (distance, size_difference)

/-- The loop body of `Track.get_overlap_ratio`, folded over the absolute
frame positions `range(start, end+1)` with the running `frames_overlapped`
count.  Inside the loop, `pos >= self.start_frame` always holds (positions
start at the max of the two start frames), so Python's `our_index >= 0` and
`other_index >= 0` guards are always true and `Nat` subtraction is exact.
The division `overlap_area / area` raises `ZeroDivisionError` when the
calling track's region at that frame has zero area (`none`). -/
def overlapLoop (t other : Track) (threshold : ℚ) : List ℕ → ℕ → Option ℕ
  | [], frames_overlapped => some frames_overlapped
  | pos :: rest, frames_overlapped =>
    let our_index := pos - t.start_frame
    let other_index := pos - other.start_frame
    if our_index < t.bounds_history.length ∧ other_index < other.bounds_history.length then
      let our_bounds := t.bounds_history.getD our_index dfltRegion
      let other_bounds := other.bounds_history.getD other_index dfltRegion
      if our_bounds.area = 0 then none
      else
        overlapLoop t other threshold rest
          (if threshold ≤ ((our_bounds.overlap_area other_bounds : ℤ) : ℚ) / ((our_bounds.area : ℤ) : ℚ)
           then frames_overlapped + 1 else frames_overlapped)
    else overlapLoop t other threshold rest frames_overlapped

/-- Spec-side description of a shared-range frame counted by
`get_overlap_ratio`: the absolute position maps to a valid index in both
histories and the overlap ratio of the two regions there reaches the
threshold. -/
def overlapPred (t o : Track) (th : ℚ) (pos : ℕ) : Bool :=
  decide ((pos - t.start_frame < t.bounds_history.length ∧
      pos - o.start_frame < o.bounds_history.length) ∧
    th ≤ (((t.bounds_history.getD (pos - t.start_frame) dfltRegion).overlap_area
        (o.bounds_history.getD (pos - o.start_frame) dfltRegion) : ℤ) : ℚ) /
      (((t.bounds_history.getD (pos - t.start_frame) dfltRegion).area : ℤ) : ℚ))

/-- Embedding of `Track.get_overlap_ratio(other_track, threshold=0.05)`: 0
when either history is empty, else the loop count over `range(start, end+1)`
divided by `len(self)`. -/
def Track.get_overlap_ratio (t other_track : Track) (threshold : ℚ) : Option ℚ :=
  if t.bounds_history.length = 0 ∨ other_track.bounds_history.length = 0 then some 0
  else
    let start : ℕ := max t.start_frame other_track.start_frame
    let stop : ℕ := min (t.start_frame + t.bounds_history.length)
      (other_track.start_frame + other_track.bounds_history.length)
    match overlapLoop t other_track threshold (List.range' start (stop + 1 - start)) 0 with
    | none => none
    | some frames_overlapped =>
      some ((frames_overlapped : ℚ) / (t.bounds_history.length : ℚ))

/-- The velocity invariant stated by the spec (§3): velocity equals the
midpoint delta of the two most recent history entries, or 0 when fewer than
two exist.  This is a spec-side predicate used to compare operations against
the specified invariant. -/
def specVelocityInvariant (t : Track) : Prop :=
  (2 ≤ t.bounds_history.length →
    t.vel_x = (pyNeg t.bounds_history 1).mid_x - (pyNeg t.bounds_history 2).mid_x ∧
    t.vel_y = (pyNeg t.bounds_history 1).mid_y - (pyNeg t.bounds_history 2).mid_y) ∧
  (t.bounds_history.length < 2 → t.vel_x = 0 ∧ t.vel_y = 0)

instance (t : Track) : Decidable (specVelocityInvariant t) := by
  unfold specVelocityInvariant; infer_instance

/-! Concrete data used by witnesses and counterexamples. -/

/-- Region with the given box, mass and pixel variance, at frame index 0. -/
def mkRegion (xx yy ww hh : ℤ) (m pv : ℚ) : Region :=
  { x := xx, y := yy, width := ww, height := hh, mass := m, pixel_variance := pv, frame_index := 0 }

/-- First track constructed without an explicit id, class counter at its
initial value 1. -/
def trackFirst : Track := (mkTrack none 1).1

/-- The class attribute `Track._track_id` after the first construction. -/
def classAfterFirst : ℤ := (mkTrack none 1).2

/-- Second track constructed without an explicit id, in the same process. -/
def trackSecond : Track := (mkTrack none classAfterFirst).1

/-- The single region held by `tW2`. -/
def rW9 : Region := mkRegion 0 0 4 4 10 0

/-- A track with exactly one history entry. -/
def tW2 : Track := trackFirst.add_frame rW9

def rectW : Rectangle := { left := 0, top := 0, right := 100, bottom := 100 }

/-- Three frames with masses 10, 10, 1 and distinct midpoints: after the three
`add_frame` calls the velocity is 4, and `trim` removes only the last frame. -/
def tC3 : Track :=
  ((trackFirst.add_frame (mkRegion 0 0 0 0 10 0)).add_frame
      (mkRegion 5 0 0 0 10 0)).add_frame (mkRegion 9 0 0 0 1 0)

/-- A single-frame track whose last bounds have midpoint (1/2, 1/2). -/
def tC5 : Track := trackFirst.add_frame (mkRegion 0 0 1 1 10 0)

/-- A zero-size candidate region with midpoint (0, 0). -/
def rC5 : Region := mkRegion 0 0 0 0 0 0

/-- Masses 1, 5, 1: trim removes one leading and one trailing frame. -/
def tC7 : Track :=
  ((trackFirst.add_frame (mkRegion 0 0 0 0 1 0)).add_frame
      (mkRegion 5 0 0 0 5 0)).add_frame (mkRegion 9 0 0 0 1 0)

/-- A track holding a single zero-area region. -/
def tZ : Track := trackFirst.add_frame (mkRegion 0 0 0 0 10 0)

def boxRegion : Region := mkRegion 0 0 10 10 10 0

/-- Five identical 10×10 frames starting at frame 0. -/
def overlapA : Track :=
  ((((trackFirst.add_frame boxRegion).add_frame boxRegion).add_frame
      boxRegion).add_frame boxRegion).add_frame boxRegion

/-- The same five frames, shifted to start at frame 2. -/
def overlapB : Track := { overlapA with start_frame := 2 }

/-- Euclidean distance between two rational points, as a real number. -/
noncomputable def euclid (a b : ℚ × ℚ) : ℝ :=
  Real.sqrt (((a.1 : ℝ) - (b.1 : ℝ)) ^ 2 + ((a.2 : ℝ) - (b.2 : ℝ)) ^ 2)

/-- Spec-side description of the per-frame offset distances of `get_stats`:
the Euclidean distance from each frame's midpoint to the first frame's
midpoint. -/
noncomputable def offsetList (l : List Region) : List ℝ :=
  l.map (fun r =>
    euclid ((l.headD dfltRegion).mid_x, (l.headD dfltRegion).mid_y) (r.mid_x, r.mid_y))

/-! Theorems. -/

/-- C1 (code bug): the class attribute `Track._track_id` is never updated,
because `self._track_id += 1` creates an instance attribute; consequently two
tracks constructed without an explicit id in the same process both receive
id 1 instead of distinct counter values. -/
theorem track_auto_ids_collide :
    trackFirst.id = 1 ∧ trackSecond.id = 1 ∧ classAfterFirst = 1 := by decide

/-- C10: passing the explicit id 0 (a falsy value) is treated exactly like
passing no id at all: the constructor takes the auto-counter branch and the
track receives the counter id. -/
theorem falsy_id_gets_auto_id (c : ℤ) :
    mkTrack (some 0) c = mkTrack none c ∧ (mkTrack (some 0) c).1.id = c :=
  ⟨rfl, rfl⟩

theorem falsy_id_gets_auto_id_witness :
    mkTrack (some 0) 5 = mkTrack none 5 ∧ (mkTrack (some 0) 5).1.id = 5 :=
  falsy_id_gets_auto_id 5

/-- C2 (code bug): on a track with exactly one history entry, `smooth` fails
(the dead initialiser `next_frame = self.bounds_history[1]` raises
`IndexError`) instead of succeeding as the claim states. -/
theorem smooth_single_frame_index_error (t : Track) (fb : Rectangle)
    (h : t.bounds_history.length = 1) : t.smooth fb = none := by
  unfold Track.smooth
  rw [if_neg (by omega)]
  have h1 : t.bounds_history[1]? = none := by
    rw [List.getElem?_eq_none_iff]
    omega
  rw [h1]

theorem smooth_single_frame_index_error_witness :
    tW2.bounds_history.length = 1 ∧ tW2.smooth rectW = none :=
  ⟨by decide, smooth_single_frame_index_error tW2 rectW (by decide)⟩

/-- C9: on a non-empty track, `add_blank_frame` appends a copy of the last
entry with mass 0, pixel variance 0 and frame index advanced by 1, zeroes the
velocity, and changes nothing else (`{ t with ... }` keeps `id`,
`start_frame`, `frames_since_target_seen`, `tag` and all earlier history
entries). -/
theorem add_blank_frame_effect (t : Track) (last : Region)
    (h : t.bounds_history.getLast? = some last) :
    t.add_blank_frame = some { t with
      bounds_history := t.bounds_history ++
        [{ last with mass := 0, pixel_variance := 0, frame_index := last.frame_index + 1 }],
      vel_x := 0, vel_y := 0 } := by
  unfold Track.add_blank_frame
  rw [h]

theorem add_blank_frame_effect_witness :
    tW2.add_blank_frame = some { tW2 with
      bounds_history := tW2.bounds_history ++
        [{ rW9 with mass := 0, pixel_variance := 0, frame_index := rW9.frame_index + 1 }],
      vel_x := 0, vel_y := 0 } :=
  add_blank_frame_effect tW2 rW9 (by decide)

/-- C5 counterexample: at `tC5` (last bounds midpoint (1/2, 1/2), velocity 0)
and candidate `rC5` (midpoint (0, 0), area 0), the claim's distance — the
Euclidean distance to the *untruncated* expected point — is √(1/2) and its
size difference is 100/51, but the code truncates the expected point to
(0, 0) with `int()` and returns distance 0, so the claimed pair is not
returned. -/
theorem region_score_truncates_expected_point :
    tC5.get_track_region_score rC5 ≠ some (Real.sqrt (1 / 2), 100 / 51) := by
  have h1 : tC5.bounds_history.getLast? = some (mkRegion 0 0 1 1 10 0) := by decide
  have e1 : (rC5.mid_x : ℝ) = 0 := by norm_num [rC5, mkRegion, Region.mid_x]
  have e2 : (rC5.mid_y : ℝ) = 0 := by norm_num [rC5, mkRegion, Region.mid_y]
  have e3 : pyInt ((mkRegion 0 0 1 1 10 0).mid_x + tC5.vel_x) = 0 := by
    with_unfolding_all decide
  have e4 : pyInt ((mkRegion 0 0 1 1 10 0).mid_y + tC5.vel_y) = 0 := by
    with_unfolding_all decide
  unfold Track.get_track_region_score
  rw [h1]
  dsimp only
  rw [if_neg (by decide)]
  simp only [e1, e2, e3, e4]
  intro hcontra
  rw [Option.some_inj, Prod.mk.injEq] at hcontra
  have h0 : Real.sqrt ((0 - ((0 : ℤ) : ℝ)) ^ 2 + (0 - ((0 : ℤ) : ℝ)) ^ 2) = 0 := by
    norm_num
  have hpos : Real.sqrt (1 / 2) ≠ 0 := ne_of_gt (Real.sqrt_pos.mpr (by norm_num))
  exact hpos (h0 ▸ hcontra.1).symm

/-- C5 amended: for a track with non-empty history whose current area is not
-50 (Python would otherwise divide by zero), `get_track_region_score` returns
the Euclidean distance from the region's midpoint to the expected point with
each coordinate truncated to an integer by `int()`, paired with
`abs(region.area - current.area) / (current.area + 50) * 100`. -/
theorem region_score_formula (t : Track) (region bounds : Region)
    (hlast : t.bounds_history.getLast? = some bounds)
    (harea : bounds.area + 50 ≠ 0) :
    t.get_track_region_score region =
      some (Real.sqrt (((region.mid_x : ℝ) - ((pyInt (bounds.mid_x + t.vel_x) : ℤ) : ℝ)) ^ 2 +
              ((region.mid_y : ℝ) - ((pyInt (bounds.mid_y + t.vel_y) : ℤ) : ℝ)) ^ 2),
            ((|region.area - bounds.area| : ℤ) : ℚ) / ((bounds.area : ℚ) + 50) * 100) := by
  unfold Track.get_track_region_score
  rw [hlast]
  dsimp only
  rw [if_neg harea]

theorem region_score_formula_witness :
    tC5.get_track_region_score rC5 =
      some (Real.sqrt (((rC5.mid_x : ℝ) -
              ((pyInt ((mkRegion 0 0 1 1 10 0).mid_x + tC5.vel_x) : ℤ) : ℝ)) ^ 2 +
            ((rC5.mid_y : ℝ) -
              ((pyInt ((mkRegion 0 0 1 1 10 0).mid_y + tC5.vel_y) : ℤ) : ℝ)) ^ 2),
          ((|rC5.area - (mkRegion 0 0 1 1 10 0).area| : ℤ) : ℚ) /
            (((mkRegion 0 0 1 1 10 0).area : ℚ) + 50) * 100) :=
  region_score_formula tC5 rC5 (mkRegion 0 0 1 1 10 0) (by decide) (by decide)

/-- C3 counterexample: on `tC3` (midpoint deltas 5 then 4, so `vel_x = 4`),
`trim` removes the last frame but leaves `vel_x = 4`, while the midpoint
delta of the two remaining entries is 5 — the velocity invariant asserted by
the claim does not hold after `trim`. -/
theorem velocity_stale_after_trim : ¬ specVelocityInvariant tC3.trim := by
  with_unfolding_all decide

/-! Helper lemmas about `getD` at the indices used for Python negative
indexing. -/

theorem getD_concat_self (l : List Region) (a d : Region) :
    (l ++ [a]).getD l.length d = a := by
  rw [List.getD_eq_getElem?_getD, List.getElem?_append_right (Nat.le_refl l.length)]
  simp

theorem getD_concat_left (l : List Region) (a d : Region) (i : ℕ) (h : i < l.length) :
    (l ++ [a]).getD i d = l.getD i d := by
  rw [List.getD_eq_getElem?_getD, List.getElem?_append_left h, List.getD_eq_getElem?_getD]

theorem getD_of_getLast? (l : List Region) (a d : Region) (h : l.getLast? = some a) :
    l.getD (l.length - 1) d = a := by
  rw [List.getD_eq_getElem?_getD, ← List.getLast?_eq_getElem?, h]
  rfl

/-- C3 amended: `add_frame` and `add_blank_frame` re-establish the velocity
invariant (velocity equals the midpoint delta of the two most recent history
entries, or 0 when fewer than two exist), while `smooth` and `trim` leave
`vel_x`/`vel_y` unchanged — they do not recompute velocity, so it can be
stale relative to the new history. -/
theorem velocity_invariant_amended :
    (∀ (t : Track) (bounds : Region), specVelocityInvariant (t.add_frame bounds)) ∧
    (∀ t t' : Track, t.add_blank_frame = some t' → specVelocityInvariant t') ∧
    (∀ (t t' : Track) (fb : Rectangle), t.smooth fb = some t' →
      t'.vel_x = t.vel_x ∧ t'.vel_y = t.vel_y) ∧
    (∀ t : Track, t.trim.vel_x = t.vel_x ∧ t.trim.vel_y = t.vel_y) := by
  refine ⟨?_, ?_, ?_, ?_⟩
  · intro t bounds
    simp only [Track.add_frame, specVelocityInvariant]
    split
    · refine ⟨fun _ => ⟨rfl, rfl⟩, fun hlt => ?_⟩
      simp only [Track.bounds_history] at hlt
      omega
    · next h =>
      refine ⟨fun h2 => ?_, fun _ => ⟨rfl, rfl⟩⟩
      simp only [Track.bounds_history] at h2
      omega
  · intro t t' h
    unfold Track.add_blank_frame at h
    cases hl : t.bounds_history.getLast? with
    | none => rw [hl] at h; exact absurd h (by simp)
    | some last =>
      rw [hl] at h
      simp only [Option.some_inj] at h
      subst h
      have hne : t.bounds_history ≠ [] := by
        intro hnil
        rw [hnil] at hl
        exact Option.noConfusion hl
      have hlen : 1 ≤ t.bounds_history.length := List.length_pos.mpr hne
      constructor
      · intro _
        constructor
        · show (0 : ℚ) = _ - _
          rw [pyNeg, pyNeg]
          simp only [List.length_append, List.length_singleton]
          have h1 : t.bounds_history.length + 1 - 1 = t.bounds_history.length := by omega
          have h2 : t.bounds_history.length + 1 - 2 = t.bounds_history.length - 1 := by omega
          rw [h1, h2, getD_concat_self, getD_concat_left _ _ _ _ (by omega),
            getD_of_getLast? _ _ _ hl]
          rw [Region.mid_x, Region.mid_x]
          ring
        · show (0 : ℚ) = _ - _
          rw [pyNeg, pyNeg]
          simp only [List.length_append, List.length_singleton]
          have h1 : t.bounds_history.length + 1 - 1 = t.bounds_history.length := by omega
          have h2 : t.bounds_history.length + 1 - 2 = t.bounds_history.length - 1 := by omega
          rw [h1, h2, getD_concat_self, getD_concat_left _ _ _ _ (by omega),
            getD_of_getLast? _ _ _ hl]
          rw [Region.mid_y, Region.mid_y]
          ring
      · intro hlt
        simp only [Track.bounds_history, List.length_append, List.length_singleton] at hlt
        omega
  · intro t t' fb h
    unfold Track.smooth at h
    by_cases h0 : t.bounds_history.length = 0
    · rw [if_pos h0] at h
      simp only [Option.some_inj] at h
      subst h
      exact ⟨rfl, rfl⟩
    · rw [if_neg h0] at h
      cases h1 : t.bounds_history[1]? with
      | none => rw [h1] at h; exact absurd h (by simp)
      | some r =>
        rw [h1] at h
        simp only [Option.some_inj] at h
        subst h
        exact ⟨rfl, rfl⟩
  · intro t
    unfold Track.trim
    dsimp only
    constructor
    · split <;> rfl
    · split <;> rfl

theorem velocity_invariant_amended_witness :
    specVelocityInvariant (tW2.add_blank_frame.getD trackFirst) :=
  velocity_invariant_amended.2.1 tW2 (tW2.add_blank_frame.getD trackFirst)
    (by with_unfolding_all decide)

/-! Characterisation of `trim` in terms of the maximal empty-mass prefix and
suffix of the history. -/

theorem trim_all_empty (t : Track) (h : ∀ r ∈ t.bounds_history, emptyMass r) :
    t.trim = { t with start_frame := 0, bounds_history := [] } := by
  have h1 : (t.bounds_history.map fun bound => pyInt bound.mass).takeWhile
      (fun m => decide (m ≤ 2)) = t.bounds_history.map fun bound => pyInt bound.mass := by
    rw [List.takeWhile_eq_self_iff]
    intro m hm
    obtain ⟨r, hr, rfl⟩ := List.mem_map.mp hm
    exact h r hr
  have h2 : (t.bounds_history.map fun bound => pyInt bound.mass).reverse.takeWhile
      (fun m => decide (m ≤ 2)) =
      (t.bounds_history.map fun bound => pyInt bound.mass).reverse := by
    rw [List.takeWhile_eq_self_iff]
    intro m hm
    rw [List.mem_reverse] at hm
    obtain ⟨r, hr, rfl⟩ := List.mem_map.mp hm
    exact h r hr
  unfold Track.trim
  dsimp only
  rw [h1, h2]
  split
  · rfl
  · next hcond =>
    exfalso
    rw [List.length_reverse] at hcond
    omega

theorem trim_not_all_empty (t : Track) (h : ¬ ∀ r ∈ t.bounds_history, emptyMass r) :
    t.trim = { t with
      start_frame := t.start_frame + (t.bounds_history.takeWhile emptyMass).length,
      bounds_history := (t.bounds_history.dropWhile emptyMass).rdropWhile emptyMass } := by
  unfold Track.trim
  dsimp only
  set l := t.bounds_history with hl
  have hA : (l.map fun bound => pyInt bound.mass).takeWhile (fun m => decide (m ≤ 2)) =
      (l.takeWhile emptyMass).map fun bound => pyInt bound.mass := by
    rw [List.takeWhile_map]
    rfl
  have hB : (l.map fun bound => pyInt bound.mass).reverse.takeWhile (fun m => decide (m ≤ 2)) =
      (l.reverse.takeWhile emptyMass).map fun bound => pyInt bound.mass := by
    rw [← List.map_reverse, List.takeWhile_map]
    rfl
  have hTD : l.takeWhile emptyMass ++ l.dropWhile emptyMass = l :=
    List.takeWhile_append_dropWhile emptyMass l
  have hDne : l.dropWhile emptyMass ≠ [] := fun hnil => h (List.dropWhile_eq_nil_iff.mp hnil)
  have hdhead : emptyMass ((l.dropWhile emptyMass).head hDne) = false :=
    List.head_dropWhile_not emptyMass l hDne
  have hKD : l.reverse.takeWhile emptyMass =
      (l.dropWhile emptyMass).reverse.takeWhile emptyMass := by
    have hne2 : ¬ ((l.dropWhile emptyMass).reverse.takeWhile emptyMass).length =
        (l.dropWhile emptyMass).reverse.length := by
      intro hlen
      have heq := (List.takeWhile_prefix emptyMass :
        (l.dropWhile emptyMass).reverse.takeWhile emptyMass <+:
          (l.dropWhile emptyMass).reverse).eq_of_length hlen
      have hmem : (l.dropWhile emptyMass).head hDne ∈ (l.dropWhile emptyMass).reverse :=
        List.mem_reverse.mpr (List.head_mem hDne)
      rw [← heq] at hmem
      have hp := List.mem_takeWhile_imp hmem
      rw [hdhead] at hp
      exact Bool.noConfusion hp
    conv_lhs => rw [← hTD]
    rw [List.reverse_append, List.takeWhile_append, if_neg hne2]
  have hsplit : (l.dropWhile emptyMass).rdropWhile emptyMass ++
      (l.dropWhile emptyMass).rtakeWhile emptyMass = l.dropWhile emptyMass := by
    rw [List.rdropWhile, List.rtakeWhile, ← List.reverse_append,
      List.takeWhile_append_dropWhile, List.reverse_reverse]
  have hEne : (l.dropWhile emptyMass).rdropWhile emptyMass ≠ [] := by
    intro hnil
    rw [List.rdropWhile_eq_nil_iff] at hnil
    have hp := hnil ((l.dropWhile emptyMass).head hDne) (List.head_mem hDne)
    rw [hdhead] at hp
    exact Bool.noConfusion hp
  have hlen1 := congrArg List.length hTD
  rw [List.length_append] at hlen1
  have hlen2 := congrArg List.length hsplit
  rw [List.length_append] at hlen2
  have hlen3 : ((l.dropWhile emptyMass).rtakeWhile emptyMass).length =
      (l.reverse.takeWhile emptyMass).length := by
    rw [hKD, List.rtakeWhile, List.length_reverse]
  have hEpos : 0 < ((l.dropWhile emptyMass).rdropWhile emptyMass).length :=
    List.length_pos.mpr hEne
  rw [hA, hB]
  simp only [List.length_map]
  have hdrop : l.drop (l.takeWhile emptyMass).length = l.dropWhile emptyMass := by
    have hd := List.drop_left (l.takeWhile emptyMass) (l.dropWhile emptyMass)
    rw [hTD] at hd
    exact hd
  have htake : (l.dropWhile emptyMass).take
      ((l.dropWhile emptyMass).rdropWhile emptyMass).length =
      (l.dropWhile emptyMass).rdropWhile emptyMass := by
    have ht := List.take_left ((l.dropWhile emptyMass).rdropWhile emptyMass)
      ((l.dropWhile emptyMass).rtakeWhile emptyMass)
    rw [hsplit] at ht
    exact ht
  split
  · next hcond => exfalso; omega
  · next hcond =>
    have hcount : (((l.length : ℤ) - 1 - ((l.reverse.takeWhile emptyMass).length : ℤ)) + 1 -
        ((l.takeWhile emptyMass).length : ℤ)).toNat =
        ((l.dropWhile emptyMass).rdropWhile emptyMass).length := by omega
    rw [hdrop, hcount, htake]

/-- C7: `trim` removes exactly the maximal leading and the maximal trailing
run of history entries with integer mass ≤ 2 (`takeWhile emptyMass` is the
maximal leading run, `dropWhile` removes it, `rdropWhile` removes the maximal
trailing run), advancing `start_frame` by the number of removed leading
entries; when every entry is empty (vacuously including an empty history) it
clears the history and resets `start_frame` to 0. -/
theorem trim_removes_empty_runs (t : Track) :
    ((∀ r ∈ t.bounds_history, emptyMass r) →
      t.trim.bounds_history = [] ∧ t.trim.start_frame = 0) ∧
    (¬ (∀ r ∈ t.bounds_history, emptyMass r) →
      t.trim.bounds_history = (t.bounds_history.dropWhile emptyMass).rdropWhile emptyMass ∧
      t.trim.start_frame = t.start_frame + (t.bounds_history.takeWhile emptyMass).length) := by
  constructor
  · intro h
    rw [trim_all_empty t h]
    exact ⟨rfl, rfl⟩
  · intro h
    rw [trim_not_all_empty t h]
    exact ⟨rfl, rfl⟩

theorem trim_removes_empty_runs_witness :
    tC7.trim.bounds_history = (tC7.bounds_history.dropWhile emptyMass).rdropWhile emptyMass ∧
    tC7.trim.start_frame = tC7.start_frame + (tC7.bounds_history.takeWhile emptyMass).length :=
  (trim_removes_empty_runs tC7).2 (by with_unfolding_all decide)

/-- C8: `trim` is idempotent — applying it twice yields the same
`start_frame` and `bounds_history` (indeed the same track) as applying it
once. -/
theorem trim_idempotent (t : Track) : t.trim.trim = t.trim := by
  by_cases h : ∀ r ∈ t.bounds_history, emptyMass r
  · rw [trim_all_empty t h]
    have h2 : ∀ r ∈ ({ t with start_frame := 0, bounds_history := [] } : Track).bounds_history,
        emptyMass r := by
      intro r hr
      exact absurd hr (List.not_mem_nil r)
    rw [trim_all_empty _ h2]
  · rw [trim_not_all_empty t h]
    have hDne : t.bounds_history.dropWhile emptyMass ≠ [] :=
      fun hnil => h (List.dropWhile_eq_nil_iff.mp hnil)
    have hHne : (t.bounds_history.dropWhile emptyMass).rdropWhile emptyMass ≠ [] := by
      intro hnil
      rw [List.rdropWhile_eq_nil_iff] at hnil
      have hp := hnil ((t.bounds_history.dropWhile emptyMass).head hDne)
        (List.head_mem hDne)
      rw [List.head_dropWhile_not emptyMass t.bounds_history hDne] at hp
      exact Bool.noConfusion hp
    obtain ⟨a, H', hH⟩ : ∃ a H',
        (t.bounds_history.dropWhile emptyMass).rdropWhile emptyMass = a :: H' := by
      cases hc : (t.bounds_history.dropWhile emptyMass).rdropWhile emptyMass with
      | nil => exact absurd hc hHne
      | cons a H' => exact ⟨a, H', rfl⟩
    have ha : emptyMass a = false := by
      obtain ⟨s, hs⟩ := List.rdropWhile_prefix emptyMass (t.bounds_history.dropWhile emptyMass)
      rw [hH] at hs
      have hsome : (t.bounds_history.dropWhile emptyMass).head? = some a := by
        rw [← hs]
        rfl
      have hd := List.head?_dropWhile_not emptyMass t.bounds_history
      rw [hsome] at hd
      exact hd
    have hlast : ∀ hl : (t.bounds_history.dropWhile emptyMass).rdropWhile emptyMass ≠ [],
        ¬ emptyMass
          (((t.bounds_history.dropWhile emptyMass).rdropWhile emptyMass).getLast hl) :=
      fun hl => List.rdropWhile_last_not emptyMass (t.bounds_history.dropWhile emptyMass) hl
    have hna : ¬ ∀ r ∈ ({ t with
        start_frame := t.start_frame + (t.bounds_history.takeWhile emptyMass).length,
        bounds_history :=
          (t.bounds_history.dropWhile emptyMass).rdropWhile emptyMass } : Track).bounds_history,
        emptyMass r := by
      intro hall
      have hmem : a ∈ (t.bounds_history.dropWhile emptyMass).rdropWhile emptyMass := by
        rw [hH]
        exact List.mem_cons_self a H'
      have := hall a hmem
      rw [ha] at this
      exact Bool.noConfusion this
    rw [trim_not_all_empty _ hna]
    dsimp only
    rw [hH]
    rw [List.takeWhile_cons_of_neg (by rw [ha]; exact Bool.false_ne_true),
      List.dropWhile_cons_of_neg (by rw [ha]; exact Bool.false_ne_true)]
    rw [List.rdropWhile_eq_self_iff.mpr (hH ▸ hlast)]
    simp only [List.length_nil, Nat.add_zero]

theorem trim_idempotent_witness : tC7.trim.trim = tC7.trim :=
  trim_idempotent tC7

/-! `get_overlap_ratio`: the loop count never exceeds the calling track's
history length, because each counted position has a distinct valid index into
it. -/

theorem getD_mem_of_lt (l : List Region) (i : ℕ) (h : i < l.length) :
    l.getD i dfltRegion ∈ l := by
  simp only [List.getD_eq_getElem?_getD, List.getElem?_eq_getElem h, Option.getD_some]
  exact List.getElem_mem h

theorem overlapLoop_eq (t o : Track) (th : ℚ)
    (harea : ∀ r ∈ t.bounds_history, r.area ≠ 0) (ps : List ℕ) :
    ∀ acc : ℕ, overlapLoop t o th ps acc = some (acc + ps.countP (overlapPred t o th)) := by
  induction ps with
  | nil =>
    intro acc
    simp [overlapLoop]
  | cons pos rest ih =>
    intro acc
    by_cases hg : pos - t.start_frame < t.bounds_history.length ∧
        pos - o.start_frame < o.bounds_history.length
    · have hne := harea _ (getD_mem_of_lt t.bounds_history (pos - t.start_frame) hg.1)
      simp only [overlapLoop]
      rw [if_pos hg, if_neg hne]
      by_cases hth : th ≤
          (((t.bounds_history.getD (pos - t.start_frame) dfltRegion).overlap_area
            (o.bounds_history.getD (pos - o.start_frame) dfltRegion) : ℤ) : ℚ) /
          (((t.bounds_history.getD (pos - t.start_frame) dfltRegion).area : ℤ) : ℚ)
      · rw [if_pos hth, ih (acc + 1)]
        have hp : overlapPred t o th pos = true := by
          unfold overlapPred
          exact decide_eq_true ⟨hg, hth⟩
        rw [List.countP_cons_of_pos _ _ hp]
        congr 1
        omega
      · rw [if_neg hth, ih acc]
        have hp : ¬ overlapPred t o th pos = true := by
          unfold overlapPred
          simp only [decide_eq_true_eq]
          intro hcon
          exact hth hcon.2
        rw [List.countP_cons_of_neg _ _ hp]
    · simp only [overlapLoop]
      rw [if_neg hg, ih acc]
      have hp : ¬ overlapPred t o th pos = true := by
        unfold overlapPred
        simp only [decide_eq_true_eq]
        intro hcon
        exact hg hcon.1
      rw [List.countP_cons_of_neg _ _ hp]

theorem countP_window_le (s n sf L : ℕ) (hs : sf ≤ s) (Q : ℕ → Prop) [DecidablePred Q] :
    (List.range' s n).countP (fun pos => decide (pos - sf < L ∧ Q pos)) ≤ L := by
  have h1 : (List.range' s n).countP (fun pos => decide (pos - sf < L ∧ Q pos)) ≤
      (List.range' s n).countP (fun pos => decide (pos - sf < L)) := by
    apply List.countP_mono_left
    intro x hx hx2
    simp only [decide_eq_true_eq] at hx2 ⊢
    exact hx2.1
  refine le_trans h1 ?_
  rw [List.countP_eq_length_filter]
  have hnd : ((List.range' s n).filter fun pos => decide (pos - sf < L)).Nodup :=
    List.Nodup.filter _ (List.nodup_range' s n)
  have hsub : ((List.range' s n).filter fun pos => decide (pos - sf < L)).toFinset ⊆
      Finset.Ico sf (sf + L) := by
    intro x hx
    rw [List.mem_toFinset, List.mem_filter] at hx
    obtain ⟨hx1, hx2⟩ := hx
    rw [List.mem_range'_1] at hx1
    rw [Finset.mem_Ico]
    simp only [decide_eq_true_eq] at hx2
    omega
  calc ((List.range' s n).filter fun pos => decide (pos - sf < L)).length
      = ((List.range' s n).filter fun pos => decide (pos - sf < L)).toFinset.card :=
        (List.toFinset_card_of_nodup hnd).symm
    _ ≤ (Finset.Ico sf (sf + L)).card := Finset.card_le_card hsub
    _ = L := by rw [Nat.card_Ico]; omega

/-- C6 amended: for every pair of tracks and every threshold, provided every
region of the calling track has nonzero area (otherwise the per-frame
division raises `ZeroDivisionError`), `get_overlap_ratio` returns the count
of shared-range frames whose overlap ratio reaches the threshold
(`overlapPred`) divided by the calling track's full history length; the value
lies in [0, 1] and is exactly 0 when either history is empty or the two
tracks' frame ranges do not intersect. -/
theorem overlap_fraction_in_unit_interval (t o : Track) (th : ℚ)
    (harea : ∀ r ∈ t.bounds_history, r.area ≠ 0) :
    ∃ q : ℚ, t.get_overlap_ratio o th = some q ∧
      q = (((List.range' (max t.start_frame o.start_frame)
            (min (t.start_frame + t.bounds_history.length)
              (o.start_frame + o.bounds_history.length) + 1 -
              max t.start_frame o.start_frame)).countP (overlapPred t o th) : ℕ) : ℚ) /
          (t.bounds_history.length : ℚ) ∧
      0 ≤ q ∧ q ≤ 1 ∧
      ((t.bounds_history.length = 0 ∨ o.bounds_history.length = 0) → q = 0) ∧
      (min (t.start_frame + t.bounds_history.length)
          (o.start_frame + o.bounds_history.length) ≤
          max t.start_frame o.start_frame → q = 0) := by
  unfold Track.get_overlap_ratio
  by_cases hemp : t.bounds_history.length = 0 ∨ o.bounds_history.length = 0
  · rw [if_pos hemp]
    refine ⟨0, rfl, ?_, le_refl 0, zero_le_one, fun _ => rfl, fun _ => rfl⟩
    rcases hemp with h1 | h1
    · rw [h1]
      norm_num
    · have hz : (List.range' (max t.start_frame o.start_frame)
          (min (t.start_frame + t.bounds_history.length)
            (o.start_frame + o.bounds_history.length) + 1 -
            max t.start_frame o.start_frame)).countP (overlapPred t o th) = 0 := by
        rw [List.countP_eq_zero]
        intro pos _
        unfold overlapPred
        simp only [decide_eq_true_eq]
        intro hcon
        omega
      rw [hz]
      norm_num
  · rw [if_neg hemp]
    push_neg at hemp
    obtain ⟨hte, hoe⟩ := hemp
    dsimp only
    have hc := overlapLoop_eq t o th harea
      (List.range' (max t.start_frame o.start_frame)
        (min (t.start_frame + t.bounds_history.length)
          (o.start_frame + o.bounds_history.length) + 1 -
          max t.start_frame o.start_frame)) 0
    rw [Nat.zero_add] at hc
    have hmono : (List.range' (max t.start_frame o.start_frame)
        (min (t.start_frame + t.bounds_history.length)
          (o.start_frame + o.bounds_history.length) + 1 -
          max t.start_frame o.start_frame)).countP (overlapPred t o th) ≤
        (List.range' (max t.start_frame o.start_frame)
          (min (t.start_frame + t.bounds_history.length)
            (o.start_frame + o.bounds_history.length) + 1 -
            max t.start_frame o.start_frame)).countP (fun pos =>
          decide (pos - t.start_frame < t.bounds_history.length ∧
            pos - o.start_frame < o.bounds_history.length)) := by
      apply List.countP_mono_left
      intro x _ hpx
      unfold overlapPred at hpx
      simp only [decide_eq_true_eq] at hpx ⊢
      exact hpx.1
    have hcle := le_trans hmono (countP_window_le _ _ _ _ (le_max_left _ _) _)
    rw [hc]
    have hlpos : 0 < (t.bounds_history.length : ℚ) := by
      have hp : 0 < t.bounds_history.length := Nat.pos_of_ne_zero hte
      exact_mod_cast hp
    refine ⟨_, rfl, rfl, ?_, ?_, ?_, ?_⟩
    · positivity
    · rw [div_le_one hlpos]
      exact_mod_cast hcle
    · intro habs
      rcases habs with h1 | h1
      · exact absurd h1 hte
      · exact absurd h1 hoe
    · intro hdisj
      have hc0 : (List.range' (max t.start_frame o.start_frame)
          (min (t.start_frame + t.bounds_history.length)
            (o.start_frame + o.bounds_history.length) + 1 -
            max t.start_frame o.start_frame)).countP (overlapPred t o th) = 0 := by
        rcases (by omega : min (t.start_frame + t.bounds_history.length)
            (o.start_frame + o.bounds_history.length) + 1 -
            max t.start_frame o.start_frame = 0 ∨
            min (t.start_frame + t.bounds_history.length)
            (o.start_frame + o.bounds_history.length) + 1 -
            max t.start_frame o.start_frame = 1)
          with hn | hn
        · rw [hn, List.range'_zero]
          rfl
        · rw [hn, List.range'_one]
          have hguard : ¬ ((max t.start_frame o.start_frame - t.start_frame <
              t.bounds_history.length ∧
              max t.start_frame o.start_frame - o.start_frame <
                o.bounds_history.length)) := by omega
          rw [List.countP_eq_zero]
          intro pos hpos
          rw [List.mem_singleton] at hpos
          subst hpos
          unfold overlapPred
          simp only [decide_eq_true_eq]
          intro hcon
          exact hguard hcon.1
      rw [hc0]
      norm_num

/-- C6 counterexample: `tZ` holds a single zero-area region; at the default
threshold the loop divides by `area = 0`, so the call raises
`ZeroDivisionError` (`none`) instead of returning the ratio the claim
promises for every pair of tracks. -/
theorem overlap_zero_area_error : tZ.get_overlap_ratio tZ (1 / 20) = none := by
  with_unfolding_all decide

theorem overlap_fraction_in_unit_interval_witness :
    ∃ q : ℚ, overlapA.get_overlap_ratio overlapB (1 / 20) = some q ∧
      q = (((List.range' (max overlapA.start_frame overlapB.start_frame)
            (min (overlapA.start_frame + overlapA.bounds_history.length)
              (overlapB.start_frame + overlapB.bounds_history.length) + 1 -
              max overlapA.start_frame overlapB.start_frame)).countP
            (overlapPred overlapA overlapB (1 / 20)) : ℕ) : ℚ) /
          (overlapA.bounds_history.length : ℚ) ∧
      0 ≤ q ∧ q ≤ 1 ∧
      ((overlapA.bounds_history.length = 0 ∨ overlapB.bounds_history.length = 0) → q = 0) ∧
      (min (overlapA.start_frame + overlapA.bounds_history.length)
          (overlapB.start_frame + overlapB.bounds_history.length) ≤
          max overlapA.start_frame overlapB.start_frame → q = 0) :=
  overlap_fraction_in_unit_interval overlapA overlapB (1 / 20) (by decide)

/-! `get_stats`: list-traversal identities and `foldr max` facts. -/

theorem foldr_max_nonneg (l : List ℝ) : 0 ≤ l.foldr max 0 := by
  induction l with
  | nil => exact le_refl 0
  | cons x xs ih => exact le_trans ih (le_max_right x _)

theorem le_foldr_max (l : List ℝ) : ∀ x ∈ l, x ≤ l.foldr max 0 := by
  induction l with
  | nil =>
    intro x hx
    exact absurd hx (List.not_mem_nil x)
  | cons y ys ih =>
    intro x hx
    rcases List.mem_cons.mp hx with h | h
    · subst h
      exact le_max_left x _
    · exact le_trans (ih x h) (le_max_right y _)

theorem foldr_max_mem_or_zero (l : List ℝ) : l.foldr max 0 ∈ l ∨ l.foldr max 0 = 0 := by
  induction l with
  | nil => exact Or.inr rfl
  | cons x xs ih =>
    rcases le_total (xs.foldr max 0) x with h | h
    · left
      rw [List.foldr_cons, max_eq_left h]
      exact List.mem_cons_self x xs
    · rw [List.foldr_cons, max_eq_right h]
      rcases ih with hmem | hz
      · exact Or.inl (List.mem_cons_of_mem x hmem)
      · exact Or.inr hz

theorem euclid_self (a : ℚ × ℚ) : euclid a a = 0 := by
  unfold euclid
  simp

theorem zero_mem_offsetList (r0 : Region) (rest : List Region) :
    (0 : ℝ) ∈ offsetList (r0 :: rest) := by
  unfold offsetList
  rw [List.map_cons]
  refine List.mem_cons.mpr (Or.inl ?_)
  rw [List.headD_cons]
  exact (euclid_self _).symm

/-- The per-consecutive-pair distance list computed by `get_stats` from the
component-wise velocity lists equals the list of Euclidean midpoint-delta
norms over consecutive frame pairs. -/
theorem movement_list_eq (l : List Region) :
    ((((l.map Region.mid_x).tail.zip (l.map Region.mid_x).dropLast).map
          (fun c => c.1 - c.2)).zip
        (((l.map Region.mid_y).tail.zip (l.map Region.mid_y).dropLast).map
          (fun c => c.1 - c.2))).map
      (fun v => Real.sqrt ((v.1 : ℝ) ^ 2 + (v.2 : ℝ) ^ 2)) =
    (l.tail.zip l.dropLast).map (fun pr =>
      euclid (pr.1.mid_x, pr.1.mid_y) (pr.2.mid_x, pr.2.mid_y)) := by
  rw [← List.map_tail Region.mid_x l, ← List.map_dropLast Region.mid_x l,
    ← List.map_tail Region.mid_y l, ← List.map_dropLast Region.mid_y l]
  rw [List.zip_map Region.mid_x Region.mid_x l.tail l.dropLast,
    List.zip_map Region.mid_y Region.mid_y l.tail l.dropLast]
  rw [List.map_map, List.map_map, List.zip_map', List.map_map]
  apply List.map_congr_left
  intro pr _
  simp only [Function.comp_apply, Prod.map_apply, Prod.map_fst, Prod.map_snd]
  unfold euclid
  push_cast
  ring_nf

/-- The per-frame offset distance list computed by `get_stats` from the
component-wise delta lists equals `offsetList`. -/
theorem offset_list_eq (r0 : Region) (rest : List Region) :
    ((((r0 :: rest).map Region.mid_x).map
          (fun v => ((r0 :: rest).map Region.mid_x).headD 0 - v)).zip
        (((r0 :: rest).map Region.mid_y).map
          (fun v => ((r0 :: rest).map Region.mid_y).headD 0 - v))).map
      (fun d => Real.sqrt ((d.1 : ℝ) ^ 2 + (d.2 : ℝ) ^ 2)) =
    offsetList (r0 :: rest) := by
  unfold offsetList
  rw [List.map_map, List.map_map, List.zip_map', List.map_map]
  apply List.map_congr_left
  intro r _
  simp only [Function.comp_apply, List.map_cons, List.headD_cons]
  unfold euclid
  push_cast
  ring_nf

/-- C4: `get_stats` is a pure function of the history; with at most one entry
it returns the all-zero record; with at least two entries (and non-negative
pixel variances, where the float model is faithful) its fields are the
movement sum, the maximum offset from the first frame, the square root of the
mean variance, the mean and the median of the integer masses, and the capped
score, which lies in [0, 200]. -/
theorem get_stats_spec :
    (∀ t t' : Track, t.bounds_history = t'.bounds_history → t.get_stats = t'.get_stats) ∧
    (∀ t : Track, t.bounds_history.length ≤ 1 →
      t.get_stats = { movement := 0, max_offset := 0, score := 0,
                      average_mass := 0, median_mass := 0, delta_std := 0 }) ∧
    (∀ t : Track, 2 ≤ t.bounds_history.length →
      (∀ r ∈ t.bounds_history, 0 ≤ r.pixel_variance) →
      t.get_stats.movement =
        ((t.bounds_history.tail.zip t.bounds_history.dropLast).map (fun pr =>
          euclid (pr.1.mid_x, pr.1.mid_y) (pr.2.mid_x, pr.2.mid_y))).sum ∧
      t.get_stats.max_offset ∈ offsetList t.bounds_history ∧
      (∀ d ∈ offsetList t.bounds_history, d ≤ t.get_stats.max_offset) ∧
      t.get_stats.delta_std =
        Real.sqrt ((((t.bounds_history.map Region.pixel_variance).sum : ℚ) : ℝ) /
          (t.bounds_history.length : ℝ)) ∧
      t.get_stats.average_mass =
        (((t.bounds_history.map fun bound => pyInt bound.mass).sum : ℚ) : ℝ) /
          (t.bounds_history.length : ℝ) ∧
      t.get_stats.median_mass =
        ((npMedian (t.bounds_history.map fun bound => pyInt bound.mass) : ℚ) : ℝ) ∧
      t.get_stats.score =
        min (Real.sqrt t.get_stats.movement + t.get_stats.max_offset) 100 +
          min (t.get_stats.delta_std * 25) 100 ∧
      0 ≤ t.get_stats.score ∧ t.get_stats.score ≤ 200) := by
  refine ⟨?_, ?_, ?_⟩
  · intro t t' h
    unfold Track.get_stats
    rw [h]
  · intro t h
    unfold Track.get_stats
    rw [if_pos h]
  · intro t h2 hvar
    obtain ⟨r0, rest, hl⟩ : ∃ r0 rest, t.bounds_history = r0 :: rest := by
      cases hbh : t.bounds_history with
      | nil =>
        rw [hbh] at h2
        simp at h2
      | cons a b => exact ⟨a, b, rfl⟩
    have hne : ¬ t.bounds_history.length ≤ 1 := by omega
    unfold Track.get_stats
    rw [if_neg hne]
    dsimp only
    refine ⟨?_, ?_, ?_, ?_, ?_, ?_, ?_, ?_, ?_⟩
    · exact congrArg List.sum (movement_list_eq t.bounds_history)
    · rw [hl, offset_list_eq]
      rcases foldr_max_mem_or_zero (offsetList (r0 :: rest)) with hm | hz
      · exact hm
      · rw [hz]
        exact zero_mem_offsetList r0 rest
    · rw [hl, offset_list_eq]
      exact le_foldr_max _
    · rw [List.length_map]
    · rw [List.length_map]
    · rfl
    · rfl
    · refine add_nonneg (le_min ?_ (by norm_num)) (le_min ?_ (by norm_num))
      · exact add_nonneg (Real.sqrt_nonneg _) (foldr_max_nonneg _)
      · exact mul_nonneg (Real.sqrt_nonneg _) (by norm_num)
    · refine le_trans (add_le_add (min_le_right _ _) (min_le_right _ _)) (by norm_num)

theorem get_stats_spec_witness :
    trackFirst.get_stats = { movement := 0, max_offset := 0, score := 0,
                             average_mass := 0, median_mass := 0, delta_std := 0 } :=
  get_stats_spec.2.1 trackFirst (by decide)

end ClassifierPipeline
